import Mathlib

/-!
Shallow embedding of the sequence-derivation core of `src/main.py`
(wincompose sequence generator).

Key sequences (`Keys`, a Python `str`) are modelled as `List Char`.
The external collaborators (the Unicode property table `udata`, the NFD
normalization `unicodedata.normalize('NFD', ·)`, the tables imported
from `data.py`: `diacritics`, `custom_dia`, `ligatures`, and `blocks`)
are parameters collected in an `Env` record; the source consults them
as read-only data.

The mutable state of the engine (the `definitions` defaultdict, which is
both seed input and memoization target, plus the `functools.cache` of
`findmap`) is an explicit `St` record threaded through the functions.
Python assertion failures and crashes are modelled by `Option`: a
`none` result is a halted run.
-/

/-- A key sequence: the `Keys` newtype of the source (a Python `str`),
modelled as the list of its characters. -/
abbrev Keys := List Char

/-- The `coreltrs` constant of the source: `string.ascii_letters`,
lowercase letters followed by uppercase letters. -/
def coreltrs : List Char :=
  ("abcdefghijklmnopqrstuvwxyz" ++ "ABCDEFGHIJKLMNOPQRSTUVWXYZ").toList

/-- The `COMBINING` constant of the source: the one-key sequence `"?"`. -/
def COMBINING : Keys := ['?']

/-- `escape_1` from the source: `ESCAPE = " ⦃⦄"` is a format string, so the
wrap prepends a single space.  A sequence is wrapped iff it has more than
one symbol and its first symbol is a core letter; otherwise it is returned
unchanged. -/
def escape_1 (mapp : Keys) : Keys :=
  match mapp with
  | c :: _ :: _ => if c ∈ coreltrs then ' ' :: mapp else mapp
  | _ => mapp

/-- `escape` from the source.  `assert len(maps) > 0` makes the empty call a
fatal contract error, modelled as `none`.  One argument: `escape_1` of it.
More than one: each argument is passed through `escape_1`, the results are
concatenated and wrapped in the pair `↹ … ↵` (`ESCAPE2 = "↹⦃⦄↵"`). -/
def escape : List Keys → Option Keys
  | [] => none
  | [m] => some (escape_1 m)
  | ms => some (('↹' :: (ms.map escape_1).flatten) ++ ['↵'])

/-- Lookup in the diacritic registry (`data.py`'s `diacritics` dict,
modelled as an association list keyed by the diacritic id string). -/
def lookupDia (reg : List (List Char × Keys)) (d : List Char) : Option Keys :=
  (reg.find? (fun p => p.1 = d)).map (fun p => p.2)

/-- `add_diacritic` from the source: `diacritics[diac] + keys`, the prefix
of the registered diacritic prepended to the sequence.  The
`assert diac in diacritics` precondition is modelled by returning `none`
for an unregistered id. -/
def add_diacritic (reg : List (List Char × Keys)) (keys : Keys) (diac : List Char) :
    Option Keys :=
  (lookupDia reg diac).map (fun p => p ++ keys)

/-- The `reduce(add_diacritic, diacs, seq0)` fold inside
`make_diacritic_sequences`: `add_diacritic` folded over the diacritic ids
left to right starting from `seq0` (the spec calls this
`applyDiacriticSequence`). -/
def applyDiacriticSequence (reg : List (List Char × Keys)) (keys : Keys)
    (diacs : List (List Char)) : Option Keys :=
  diacs.foldl (fun acc d => acc.bind (fun k => add_diacritic reg k d)) (some keys)

/-- Cartesian product of a list of lists, in the order of
`itertools.product`: the first list varies slowest, the last fastest. -/
def cart : List (List α) → List (List α)
  | [] => [[]]
  | l :: ls => l.flatMap (fun x => (cart ls).map (fun t => x :: t))

/-- The ligature candidates built at step 7 of `findmap`: for each choice
of one candidate per component, the raw concatenation (`''.join(mapp)`,
no escaping) wrapped in the ligature marker pair `& … ↵`
(`LIGATURE = "&⦃⦄↵"`). -/
def ligature_candidates (lists : List (List Keys)) : List Keys :=
  (cart lists).map (fun t => ('&' :: t.flatten) ++ ['↵'])

/-- The `Chardata` record of the source (one row of `UnicodeData.txt`). -/
structure Chardata where
  name : List Char
  cat : List Char
  deco : List Char
  upper : Option Char
  lower : Option Char
deriving DecidableEq

/-- The sentinel returned by the `udata` defaultdict for absent
codepoints. -/
def sentinel : Chardata := ⟨"UNNAMED".toList, "Cn".toList, [], none, none⟩

/-- The external data consulted by the engine. -/
structure Env where
  /-- The rows actually loaded from `UnicodeData.txt` (without the
  defaultdict sentinel). -/
  udataRaw : List (Char × Chardata)
  /-- `unicodedata.normalize('NFD', c)` for a single character. -/
  nfd : Char → List Char
  /-- `data.py`'s `diacritics` table: diacritic id → key prefix. -/
  diacritics : List (List Char × Keys)
  /-- `data.py`'s `custom_dia` table: id → (template decompositions,
  character string).  `values[0]` is indexable by the position of the
  character in `values[1]`. -/
  custom_dia : List (List Char × List (List Char) × List Char)
  /-- `data.py`'s `ligatures` table: character → component characters. -/
  ligatures : List (Char × List Char)
  /-- The block ranges loaded from `Blocks.txt`. -/
  blocks : List (Nat × Nat × List Char)
  /-- Single-character `str.lower`.  The source lowercases key sequences
  with Python's `str.lower`, which acts characterwise on the symbols that
  can occur in key sequences. -/
  lowerChar : Char → Char

/-- The `udata` defaultdict lookup: total, sentinel for absent keys. -/
def udata (env : Env) (c : Char) : Chardata :=
  ((env.udataRaw.find? (fun p => p.1 = c)).map (fun p => p.2)).getD sentinel

/-- Lookup in the ligature table (`char in ligatures` / `ligatures[char]`). -/
def lookupLig (env : Env) (c : Char) : Option (List Char) :=
  (env.ligatures.find? (fun p => p.1 = c)).map (fun p => p.2)

/-- Value of one hexadecimal digit (0 for a non-digit; valid
`UnicodeData.txt` fields only contain valid digits, on which this agrees
with Python's `int(x, 16)`). -/
def hexVal (c : Char) : Nat :=
  if '0' ≤ c ∧ c ≤ '9' then c.toNat - '0'.toNat
  else if 'a' ≤ c ∧ c ≤ 'f' then c.toNat - 'a'.toNat + 10
  else if 'A' ≤ c ∧ c ≤ 'F' then c.toNat - 'A'.toNat + 10
  else 0

/-- `int(x, 16)` on a hex word. -/
def hexToNat (s : List Char) : Nat := s.foldl (fun a c => a * 16 + hexVal c) 0

/-- Helper for `splitWords`: accumulates the current word reversed. -/
def splitWordsAux : List Char → List Char → List (List Char)
  | [], acc => if acc = [] then [] else [acc.reverse]
  | c :: cs, acc =>
    if c = ' ' then
      (if acc = [] then splitWordsAux cs [] else acc.reverse :: splitWordsAux cs [])
    else splitWordsAux cs (c :: acc)

/-- Python `str.split()` with no separator: maximal non-space runs (the
decomposition fields of `UnicodeData.txt` use only plain spaces). -/
def splitWords (s : List Char) : List (List Char) := splitWordsAux s []

/-- `decompose` from the source: parse `udata[char].deco` into an optional
tag and the decomposition text.  An empty field yields `(None, char)`.
A whitespace-only field would make `words[0]` raise `IndexError` in the
source; that halt is modelled as `none`. -/
def decompose (env : Env) (char : Char) : Option (Option (List Char) × List Char) :=
  let deco := (udata env char).deco
  if deco = [] then some (none, [char])
  else
    match splitWords deco with
    | [] => none
    | w :: ws =>
      if w.head? = some '<' then
        some (some w, ws.map (fun x => Char.ofNat (hexToNat x)))
      else
        some (none, (w :: ws).map (fun x => Char.ofNat (hexToNat x)))

/-- The fixed exclusion set of `findmap` step 3, written with explicit
codepoints (the first character of the source literal is U+212B ANGSTROM
SIGN, and the Greek vowels are the precomposed oxia forms). -/
def excluded_chars : List Char :=
  [Char.ofNat 0x212B, Char.ofNat 0xA9, Char.ofNat 0xAE, Char.ofNat 0x1F12B,
   Char.ofNat 0x1F12C, Char.ofNat 0xBA, Char.ofNat 0xAA, Char.ofNat 0x1D4C,
   Char.ofNat 0x1F71, Char.ofNat 0x1F73, Char.ofNat 0x1F75, Char.ofNat 0x1F77,
   Char.ofNat 0x1F79, Char.ofNat 0x1F7B, Char.ofNat 0x1F7D, Char.ofNat 0x1FBB,
   Char.ofNat 0x1FC9, Char.ofNat 0x1FCB, Char.ofNat 0x1FD3, Char.ofNat 0x1FDB,
   Char.ofNat 0x1FE3, Char.ofNat 0x1FEB, Char.ofNat 0x1FF9, Char.ofNat 0x1FFB,
   Char.ofNat 0x1FEE, Char.ofNat 0xFE49, Char.ofNat 0xFE4A, Char.ofNat 0xFE4B,
   Char.ofNat 0xFE4C, Char.ofNat 0xFE4D, Char.ofNat 0xFE4E, Char.ofNat 0xFE4F,
   Char.ofNat 0xFE34, Char.ofNat 0x1F14B]

/-- The mutable state of the engine: the `definitions` defaultdict (an
association list; a missing key reads as `[]`) together with the set of
characters whose `findmap` result has been cached by `functools.cache`. -/
structure St where
  table : List (Char × List Keys)
  cached : List Char
deriving DecidableEq

/-- Read an entry of the `definitions` table (defaultdict semantics:
absent key ⇒ empty list). -/
def lookupT (t : List (Char × List Keys)) (c : Char) : List Keys :=
  ((t.find? (fun p => p.1 = c)).map (fun p => p.2)).getD []

/-- Overwrite an entry of the `definitions` table. -/
def setT (t : List (Char × List Keys)) (c : Char) (v : List Keys) :
    List (Char × List Keys) :=
  if t.any (fun p => p.1 = c) then
    t.map (fun p => if p.1 = c then (c, v) else p)
  else t ++ [(c, v)]

/-- `maps.extend(…)` in `findmap`: `maps` aliases `definitions[char]`, so
each extend appends to that entry of the table in place. -/
def appendT (st : St) (c : Char) (cands : List Keys) : St :=
  ⟨setT st.table c (lookupT st.table c ++ cands), st.cached⟩

/-- A resolver: the recursive entry point (`getmap`) abstracted as a
state-passing partial function, used to break the mutual recursion
(tied off below with fuel in `getmapF`). -/
abbrev Resolver := St → Char → Option (List Keys × St)

/-- `map(getmap, text)` as forced by `itertools.product`: resolve each
character of the text in order, threading the state. -/
def getmapListG (g : Resolver) : St → List Char → Option (List (List Keys) × St)
  | st, [] => some ([], st)
  | st, c :: cs =>
    (g st c).bind (fun r => (getmapListG g r.2 cs).map (fun r2 => (r.1 :: r2.1, r2.2)))

/-- `make_diacritic_sequences` from the source.  The registry-membership
test is evaluated first; if some id is unregistered the result is `[]`
and no resolution happens.  Otherwise each character of `deco` is
resolved, and for each choice of one candidate per character the tuple is
escaped as one group and the diacritic prefixes are folded on.  `escape`
of an empty tuple (only possible for empty `deco`) is the assertion
failure of the source, hence the `Option` plumbing. -/
def make_diacritic_sequencesG (g : Resolver) (reg : List (List Char × Keys))
    (diacs : List (List Char)) (deco : List Char) (st : St) :
    Option (List Keys × St) :=
  if diacs.all (fun d => (lookupDia reg d).isSome) then
    (getmapListG g st deco).bind (fun r =>
      ((cart r.1).mapM
          (fun ts => (escape ts).bind (fun e => applyDiacriticSequence reg e diacs))).map
        (fun cands => (cands, r.2)))
  else some ([], st)

/-- The `for dia, values in custom_dia.items()` loop of `findmap` step 2:
for each entry whose character string contains `char`, build the
diacritic sequences from the template at the character's position and
append them to `char`'s entry.  (`values[0][index]` is modelled with a
default for an out-of-range index; well-formed tables keep `values[0]`
and `values[1]` aligned.) -/
def customDiaG (g : Resolver) (reg : List (List Char × Keys)) (char : Char) :
    List (List Char × List (List Char) × List Char) → St → Option St
  | [], st => some st
  | (dia, temps, chars) :: rest, st =>
    match chars.findIdx? (fun x => x = char) with
    | some index =>
      (make_diacritic_sequencesG g reg [dia] (temps.getD index []) st).bind
        (fun r => customDiaG g reg char rest (appendT r.2 char r.1))
    | none => customDiaG g reg char rest st

/-- `findmap` from the source, with the recursive `getmap` abstracted as
`g`.  The entry `definitions[char]` is read as the seed; every step
appends its candidates to that same entry in place (in the source `maps`
aliases the entry); the returned list is the final contents of the entry,
which `functools.cache` then memoizes (modelled by `cached`) — see
`findmapG` below for the assembled function.
Step 4 of `findmap` (bare combining mark): when the id `"◌" + char` is
registered, append the diacritic applied to the `COMBINING` placeholder
to `char`'s entry. -/
def combiningStep (env : Env) (char : Char) (st : St) : St :=
  match lookupDia env.diacritics ('◌' :: [char]) with
  | some p => appendT st char [p ++ COMBINING]
  | none => st

/-- Step 5 of `findmap` (canonical decomposition): when the NFD form of
`char` has more than one symbol, build the diacritic sequences of the
base under the combining marks and append them to `char`'s entry. -/
def nfdStep (g : Resolver) (env : Env) (char : Char) (st : St) : Option St :=
  match env.nfd char with
  | b :: m :: rest =>
    (make_diacritic_sequencesG g env.diacritics
        ((m :: rest).map (fun x => ['◌', x])) [b] st).map
      (fun (r : List Keys × St) => appendT r.2 char r.1)
  | _ => some st

/-- Step 6 of `findmap` (compatibility decomposition): a parenthesized
`<compat>` decomposition goes through the `"parens"` diacritic on the
inner text; any other tagged decomposition goes through the tag used as
a diacritic id. -/
def compatStep (g : Resolver) (env : Env) (char : Char) (st : St) : Option St :=
  match decompose env char with
  | none => none
  | some (some t, deco) =>
    if t = "<compat>".toList ∧ deco.head? = some '(' ∧ deco.getLast? = some ')'
    then
      (make_diacritic_sequencesG g env.diacritics ["parens".toList]
          ((deco.drop 1).dropLast) st).map
        (fun (r : List Keys × St) => appendT r.2 char r.1)
    else
      (make_diacritic_sequencesG g env.diacritics [t] deco st).map
        (fun (r : List Keys × St) => appendT r.2 char r.1)
  | some (none, _) => some st

/-- Step 7 of `findmap` (ligature expansion): resolve each component,
then append to `char`'s entry one candidate per choice of component
candidates — the raw concatenation wrapped in the ligature markers. -/
def ligStep (g : Resolver) (env : Env) (char : Char) (st : St) : Option St :=
  match lookupLig env char with
  | some comps =>
    (getmapListG g st comps).map
      (fun (r : List (List Keys) × St) =>
        appendT r.2 char (ligature_candidates r.1))
  | none => some st

/-- `findmap` from the source, assembled from the steps above: a cached
character returns its table entry unchanged; otherwise steps 2 and 4–7
append their candidates to `definitions[char]` in place, step 3 (the
exclusion set) returns early after step 2, and the final entry contents
are returned and memoized. -/
def findmapG (g : Resolver) (env : Env) (st : St) (char : Char) :
    Option (List Keys × St) :=
  if char ∈ st.cached then some (lookupT st.table char, st) else
  (customDiaG g env.diacritics char env.custom_dia st).bind (fun st2 =>
    if char ∈ excluded_chars then
      some (lookupT st2.table char, ⟨st2.table, char :: st2.cached⟩)
    else
      (nfdStep g env char (combiningStep env char st2)).bind (fun st5 =>
      (compatStep g env char st5).bind (fun st6 =>
      (ligStep g env char st6).map (fun st7 =>
        (lookupT st7.table char, ⟨st7.table, char :: st7.cached⟩)))))

/-- `getmap` from the source: core letters resolve to themselves; a
printable ASCII symbol resolves through the `"ascii"` diacritic when that
is registered; everything else goes to the memoized `findmap`. -/
def getmapG (g : Resolver) (env : Env) (st : St) (char : Char) :
    Option (List Keys × St) :=
  if char ∈ coreltrs then some ([[char]], st)
  else if '\x21' ≤ char ∧ char ≤ '\x7E' then
    match lookupDia env.diacritics ("ascii".toList) with
    | some p => some ([p ++ [char]], st)
    | none => findmapG g env st char
  else findmapG g env st char

/-- The recursion of `getmap`/`findmap`, tied off with fuel.  The source
assumes the decomposition relation is acyclic, so on its intended inputs
the recursion is finite; running out of fuel is `none`. -/
def getmapF : Nat → Env → St → Char → Option (List Keys × St)
  | 0, _, _, _ => none
  | fuel + 1, env, st, char => getmapG (getmapF fuel env) env st char

/-- `findmap` with fuel for its recursive `getmap` calls. -/
def findmapF (fuel : Nat) (env : Env) (st : St) (char : Char) :
    Option (List Keys × St) :=
  findmapG (getmapF fuel env) env st char

/-- Lexicographic comparison of key sequences by code point, the order
Python's `sorted` uses on `str`. -/
def lexLe : Keys → Keys → Bool
  | [], _ => true
  | _ :: _, [] => false
  | a :: as_, b :: bs =>
    if a.toNat < b.toNat then true
    else if b.toNat < a.toNat then false
    else lexLe as_ bs

/-- Stable insertion into a sorted list: the new element goes after every
element that is `le` it. -/
def insertS (le : α → α → Bool) : List α → α → List α
  | [], x => [x]
  | y :: ys, x => if le y x then y :: insertS le ys x else x :: y :: ys

/-- A stable ascending sort (insertion sort processing the list left to
right), modelling Python's stable `sorted`. -/
def sortedBy (le : α → α → Bool) (l : List α) : List α := l.foldl (insertS le) []

/-- `block_of` from the source: the name of the first block range
containing the character, defaulting to `"not assigned"`. -/
def block_of (env : Env) (c : Char) : List Char :=
  ((env.blocks.find? (fun b => b.1 ≤ c.toNat ∧ c.toNat ≤ b.2.1)).map
    (fun b => b.2.2)).getD ("not assigned".toList)

/-- One line written by `sort` to `definitions_sorted.txt`: a block
header comment, a combined case-pair line `upp low :: seq`, a plain
per-character line (with its combining-mark marker flag), or a macro
line. -/
inductive Line where
  | header (name : List Char)
  | pair (upp low : Char) (seq : Keys)
  | plain (mark : Bool) (c : Char) (seq : Keys)
  | mline (text : List Char) (seq : Keys)
deriving DecidableEq

/-- `rule.lower()` on a key sequence, characterwise. -/
def mapLower (env : Env) (k : Keys) : Keys := k.map env.lowerChar

/-- The inner `for ruleno, rule in enumerate(sorted(v))` loop of `sort`,
for one character: `rules` is the remaining suffix of the sorted
candidate list and `ruleno` the index of its head.  A candidate whose
lowercased form is in `ignore` is skipped.  Otherwise, when the character
has a distinct case counterpart (judged from `udata`) and the entries of
the raw `definitions` lists at index `ruleno` exist and satisfy
`lrule == urule.lower()`, one combined pair line is written and `lrule`
is added to `ignore`; else a plain line is written.  Returns the written
lines and the final `ignore` list. -/
def procRules (env : Env) (defs : List (Char × List Keys)) (char : Char)
    (data : Chardata) : Nat → List Keys → List Keys → List Line × List Keys
  | _, [], ignore => ([], ignore)
  | ruleno, rule :: rest, ignore =>
    if mapLower env rule ∈ ignore then
      procRules env defs char data (ruleno + 1) rest ignore
    else
      let low : Char := data.lower.getD char
      let upp : Char := data.upper.getD char
      let plainLine : Line :=
        Line.plain (data.cat = "Mc".toList ∨ data.cat = "Me".toList ∨
          data.cat = "Mn".toList ∨ data.cat = "Lm".toList) char rule
      if low ≠ upp ∧ (char = upp ∨ char = low) ∧
          (udata env ((udata env low).upper.getD 'a')).lower = some low then
        match (lookupT defs low)[ruleno]?, (lookupT defs upp)[ruleno]? with
        | some lrule, some urule =>
          if lrule = mapLower env urule then
            let r := procRules env defs char data (ruleno + 1) rest (ignore ++ [lrule])
            (Line.pair upp low lrule :: r.1, r.2)
          else
            let r := procRules env defs char data (ruleno + 1) rest ignore
            (plainLine :: r.1, r.2)
        | _, _ =>
          let r := procRules env defs char data (ruleno + 1) rest ignore
          (plainLine :: r.1, r.2)
      else
        let r := procRules env defs char data (ruleno + 1) rest ignore
        (plainLine :: r.1, r.2)

/-- The outer `for char, v in sorted(definitions.items(), …)` loop of
`sort`: emit a block header whenever the block name changes, then the
lines of `procRules` on the character's sorted candidate list, threading
`last_block` and `ignore`. -/
def sortOuter (env : Env) (defs : List (Char × List Keys)) :
    List (Char × List Keys) → List Char → List Keys → List Line
  | [], _, _ => []
  | (char, v) :: rest, lastb, ignore =>
    let data := udata env char
    let newb := block_of env char
    let hdr : List Line := if lastb ≠ newb then [Line.header newb] else []
    let r := procRules env defs char data 0 (sortedBy lexLe v) ignore
    hdr ++ r.1 ++ sortOuter env defs rest newb r.2

/-- The character section of `sort`: the items of `definitions` sorted by
the code point of the key (`key=lambda x: ord(x[0][0])`), processed with
`last_block` initialized to `"not assigned\n"` and an empty `ignore`
list. -/
def sortLines (env : Env) (defs : List (Char × List Keys)) : List Line :=
  sortOuter env defs
    (sortedBy (fun a b => Nat.ble a.1.toNat b.1.toNat) defs)
    ("not assigned\n".toList) []

/-- Everything `sort` writes after the character section: one line per
entry of the macro list. -/
def sortMacroLines (mcrs : List (List Char × Keys)) : List Line :=
  mcrs.map (fun m => Line.mline m.1 m.2)

/-- A rule handed to `add_rule`: key sequence, produced text, comment. -/
structure Rule where
  keys : Keys
  result : List Char
  comment : List Char
deriving DecidableEq

/-- The character loop of `write_to_file`.  In the source the
`try/except KeyError` around `udata[chr(cp)]` never fires, because
`udata` is a defaultdict; the `else` branch therefore runs for every
code point: `findmap` is called on it, and each returned candidate is
emitted as a rule whose comment is the (possibly sentinel) name. -/
def writeCharsF (fuel : Nat) (env : Env) : List Nat → St → Option (List Rule × St)
  | [], st => some ([], st)
  | cp :: cps, st =>
    match findmapF fuel env st (Char.ofNat cp) with
    | none => none
    | some (maps, st') =>
      (writeCharsF fuel env cps st').map (fun (r : List Rule × St) =>
        ((maps.map (fun m =>
          (⟨m, [Char.ofNat cp], (udata env (Char.ofNat cp)).name⟩ : Rule))) ++ r.1,
         r.2))

/-- `write_to_file` from the source: the character loop over the range
`range(0x1FFFF)`, then one rule per macro with comment `"macro"`. -/
def write_to_fileF (fuel : Nat) (env : Env) (mcrs : List (List Char × Keys)) (st : St) :
    Option (List Rule × St) :=
  (writeCharsF fuel env (List.range 0x1FFFF) st).map (fun (r : List Rule × St) =>
    (r.1 ++ mcrs.map (fun m => ⟨m.2, m.1, "macro".toList⟩), r.2))

/-- The shadow scan at the end of `write_to_file`: for every emitted rule
sequence and every `n` in `range(1, len(rule))`, warn when `rule[:n]` is
itself in the rule list.  Returns the warned (prefix, shadowed rule)
pairs in emission order. -/
def shadow_warnings (rules : List Keys) : List (Keys × Keys) :=
  rules.flatMap (fun rule =>
    (List.range' 1 (rule.length - 1)).flatMap (fun n =>
      if rules.contains (rule.take n) then [(rule.take n, rule)] else []))

/-- True for every line that is not a block-header comment. -/
def notHeader : Line → Bool
  | Line.header _ => false
  | _ => true

/-- ASCII-only single-character lowercasing, the restriction of Python's
`str.lower` used in the concrete examples below. -/
def lowerAscii (c : Char) : Char :=
  if 'A' ≤ c ∧ c ≤ 'Z' then Char.ofNat (c.toNat + 32) else c

/-- A minimal environment: no Unicode rows, no tables, identity NFD. -/
def env0 : Env :=
  { udataRaw := [], nfd := fun c => [c], diacritics := [],
    custom_dia := [], ligatures := [], blocks := [], lowerChar := id }

/-- Environment for the ligature example `ﬁ → [f, i]`. -/
def envFi : Env :=
  { udataRaw := [], nfd := fun c => [c], diacritics := [],
    custom_dia := [], ligatures := [('ﬁ', ['f', 'i'])], blocks := [],
    lowerChar := id }

/-- Environment with a ligature `Ǣ → [œ]` whose component has a
multi-key candidate starting with a core letter (seeded in the state
below), exposing the missing per-candidate escaping of step 7. -/
def envLig : Env :=
  { udataRaw := [], nfd := fun c => [c], diacritics := [],
    custom_dia := [], ligatures := [('Ǣ', ['œ'])], blocks := [],
    lowerChar := id }

/-- Unicode rows for a case pair `A`/`a`. -/
def udataAa : List (Char × Chardata) :=
  [('A', ⟨"LATIN CAPITAL LETTER A".toList, "Lu".toList, [], none, some 'a'⟩),
   ('a', ⟨"LATIN SMALL LETTER A".toList, "Ll".toList, [], some 'A', none⟩)]

/-- Environment for the case-pair compaction counterexample: the pair
`A`/`a` with ASCII lowercasing. -/
def envAa : Env :=
  { udataRaw := udataAa, nfd := fun c => [c], diacritics := [],
    custom_dia := [], ligatures := [], blocks := [], lowerChar := lowerAscii }

/-- The same case pair with the identity lowercasing (used by the
aligned-lists witness). -/
def envAaId : Env :=
  { udataRaw := udataAa, nfd := fun c => [c], diacritics := [],
    custom_dia := [], ligatures := [], blocks := [], lowerChar := id }

/-- Stored candidate lists for the counterexample: the stored order of
both lists differs from the sorted order. -/
def defsAa : List (Char × List Keys) :=
  [('A', [['Z', 'Z'], ['B']]), ('a', [['z', 'z'], ['b']])]

/-- Table growth: every entry of the first state's table is a prefix of
the same entry in the second state's table (append-only evolution). -/
def TableMono (st st' : St) : Prop :=
  ∀ d, lookupT st.table d <+: lookupT st'.table d

/-- A resolver whose successful runs only grow the table. -/
def ResolverMono (g : Resolver) : Prop :=
  ∀ st c res st', g st c = some (res, st') → TableMono st st'

/-- C6: `escape` applied to exactly one sequence returns `escape_1` of
that sequence; applied to more than one it returns the concatenation of
`escape_1` of each, wrapped in the multi-argument group markers `↹ … ↵`;
applied to zero sequences it is a fatal assertion failure (modelled as
`none`). -/
theorem escape_spec :
    escape [] = none ∧
    (∀ m : Keys, escape [m] = some (escape_1 m)) ∧
    (∀ (m₁ m₂ : Keys) (ms : List Keys),
      escape (m₁ :: m₂ :: ms) =
        some (('↹' :: ((m₁ :: m₂ :: ms).map escape_1).flatten) ++ ['↵'])) :=
  ⟨rfl, fun _ => rfl, fun _ _ _ => rfl⟩

/-- C10: `escape_1` is idempotent on every sequence: a wrapped sequence
begins with the space marker, which is not a core letter, so it is never
wrapped again; an unwrapped sequence is returned unchanged. -/
theorem escape_1_idem (s : Keys) : escape_1 (escape_1 s) = escape_1 s := by
  match s with
  | [] => rfl
  | [c] => rfl
  | c :: d :: t =>
    by_cases h : c ∈ coreltrs
    · simp only [escape_1, if_pos h]
      have hsp : ' ' ∉ coreltrs := by decide
      simp only [escape_1, if_neg hsp]
    · simp only [escape_1, if_neg h]

/-- C9: for every core letter `c`, `getmap` returns exactly the
one-element list containing the single-symbol sequence `c`, regardless of
the environment tables and of the state, and without touching the
state. -/
theorem getmap_core (fuel : Nat) (env : Env) (st : St) (c : Char)
    (h : c ∈ coreltrs) : getmapF (fuel + 1) env st c = some ([[c]], st) := by
  simp only [getmapF, getmapG, if_pos h]

/-- Witness for C9 at `c = 'a'` in the empty environment. -/
theorem getmap_core_witness :
    'a' ∈ coreltrs ∧ getmapF 1 env0 ⟨[], []⟩ 'a' = some ([['a']], ⟨[], []⟩) :=
  ⟨by decide, getmap_core 0 env0 ⟨[], []⟩ 'a' (by decide)⟩

/-- C7: `make_diacritic_sequences` returns an empty result (with no
error and no state change) whenever at least one requested diacritic id
is not registered; the derivation branch is silently skipped. -/
theorem mds_unregistered (g : Resolver) (reg : List (List Char × Keys))
    (diacs : List (List Char)) (deco : List Char) (st : St) (d : List Char)
    (hd : d ∈ diacs) (hmiss : lookupDia reg d = none) :
    make_diacritic_sequencesG g reg diacs deco st = some ([], st) := by
  have hall : diacs.all (fun d => (lookupDia reg d).isSome) = false := by
    rw [List.all_eq_false]
    exact ⟨d, hd, by simp [hmiss]⟩
  simp only [make_diacritic_sequencesG, hall, Bool.false_eq_true, if_false]

/-- Witness for C7: requesting the unregistered id `"x"` over a
non-trivial decomposition text yields no candidates and leaves the state
alone. -/
theorem mds_unregistered_witness :
    ['x'] ∈ [['x']] ∧ lookupDia env0.diacritics ['x'] = none ∧
    make_diacritic_sequencesG (getmapF 1 env0) env0.diacritics [['x']] ['a', 'b']
      ⟨[], []⟩ = some ([], ⟨[], []⟩) :=
  ⟨by decide, rfl,
    mds_unregistered (getmapF 1 env0) env0.diacritics [['x']] ['a', 'b']
      ⟨[], []⟩ ['x'] (by decide) rfl⟩

/-- C4: the fold of `add_diacritic` over a diacritic id list is left to
right from the base sequence: appending an id to the list applies its
prefix outermost; for two registered ids the result is
`prefix(d₂) ++ prefix(d₁) ++ base`, which also equals the sequential
application of `[d₁]` then `[d₂]`. -/
theorem applyDiacriticSequence_spec (reg : List (List Char × Keys))
    (base p₁ p₂ : Keys) (d₁ d₂ : List Char)
    (h₁ : lookupDia reg d₁ = some p₁) (h₂ : lookupDia reg d₂ = some p₂) :
    (∀ (s : Keys) (ds : List (List Char)) (d : List Char),
      applyDiacriticSequence reg s (ds ++ [d]) =
        (applyDiacriticSequence reg s ds).bind (fun k => add_diacritic reg k d)) ∧
    applyDiacriticSequence reg base [d₁, d₂] = some (p₂ ++ p₁ ++ base) ∧
    (applyDiacriticSequence reg base [d₁]).bind
        (fun s => applyDiacriticSequence reg s [d₂]) =
      applyDiacriticSequence reg base [d₁, d₂] := by
  refine ⟨fun s ds d => ?_, ?_, ?_⟩
  · simp only [applyDiacriticSequence, List.foldl_append, List.foldl_cons,
      List.foldl_nil]
  · simp [applyDiacriticSequence, add_diacritic, h₁, h₂, List.append_assoc]
  · simp [applyDiacriticSequence, add_diacritic, h₁, h₂]

/-- Witness for C4 with the concrete registry `x ↦ p`, `y ↦ q`. -/
theorem applyDiacriticSequence_witness :
    lookupDia [(['x'], ['p']), (['y'], ['q'])] ['x'] = some ['p'] ∧
    lookupDia [(['x'], ['p']), (['y'], ['q'])] ['y'] = some ['q'] ∧
    applyDiacriticSequence [(['x'], ['p']), (['y'], ['q'])] ['b'] [['x'], ['y']]
      = some (['q'] ++ ['p'] ++ ['b']) :=
  ⟨rfl, rfl,
    (applyDiacriticSequence_spec [(['x'], ['p']), (['y'], ['q'])] ['b'] ['p'] ['q']
      ['x'] ['y'] rfl rfl).2.1⟩

/-- C8: the shadow scan warns, for a pair `(p, r)`, exactly when `r` is
an emitted rule sequence and `p` is a non-empty strict prefix of `r`
that is itself an emitted rule sequence (any such match is necessarily a
different, shorter rule); on `[a, ab]` exactly the warning `(a, ab)` is
emitted and on `[ab, cd]` none. -/
theorem shadow_warnings_spec :
    (∀ (rules : List Keys) (p r : Keys),
      (p, r) ∈ shadow_warnings rules ↔
        (r ∈ rules ∧ p ∈ rules ∧ p ≠ [] ∧ p.length < r.length ∧ p <+: r)) ∧
    shadow_warnings [['a'], ['a', 'b']] = [(['a'], ['a', 'b'])] ∧
    shadow_warnings [['a', 'b'], ['c', 'd']] = [] := by
  refine ⟨fun rules p r => ?_, by decide, by decide⟩
  constructor
  · intro h
    simp only [shadow_warnings, List.mem_flatMap] at h
    obtain ⟨rule, hrule, h2⟩ := h
    obtain ⟨n, hn, h3⟩ := h2
    by_cases hc : rules.contains (rule.take n)
    · simp only [hc, if_true, List.mem_singleton, Prod.mk.injEq] at h3
      obtain ⟨rfl, rfl⟩ := h3
      rw [List.mem_range'] at hn
      obtain ⟨j, hj, hnj⟩ := hn
      have h1n : 1 ≤ n := by omega
      have hnlen : n < r.length := by omega
      have htk : (r.take n).length = n := by
        rw [List.length_take]; omega
      refine ⟨hrule, List.mem_of_elem_eq_true hc, ?_, ?_, List.take_prefix n r⟩
      · intro hnil
        rw [hnil] at htk
        simp at htk
        omega
      · rw [htk]; exact hnlen
    · simp only [hc, if_false] at h3
      simp at h3
  · rintro ⟨hr, hp, hne, hlen, hpre⟩
    simp only [shadow_warnings, List.mem_flatMap]
    refine ⟨r, hr, p.length, ?_, ?_⟩
    · rw [List.mem_range']
      have h1 : 1 ≤ p.length := List.length_pos.mpr hne
      exact ⟨p.length - 1, by omega, by omega⟩
    · have htake : r.take p.length = p := (List.prefix_iff_eq_take.mp hpre).symm
      rw [htake]
      have hcp : rules.contains p = true := List.elem_eq_true_of_mem hp
      simp only [hcp, if_true, List.mem_singleton]

theorem lookupT_map_other (t : List (Char × List Keys)) (c : Char) (v : List Keys)
    (d : Char) (hne : d ≠ c) :
    lookupT (t.map (fun p => if p.1 = c then (c, v) else p)) d = lookupT t d := by
  induction t with
  | nil => rfl
  | cons p ts ih =>
    by_cases hp : p.1 = c
    · simp only [List.map_cons, if_pos hp, lookupT, List.find?_cons]
      have h1 : (decide ((c, v).1 = d)) = false := by
        simp [Ne.symm hne]
      have h2 : (decide (p.1 = d)) = false := by
        simp [hp, Ne.symm hne]
      rw [h1, h2]
      exact ih
    · simp only [List.map_cons, if_neg hp, lookupT, List.find?_cons]
      by_cases hd : p.1 = d
      · rw [decide_eq_true hd]
      · rw [decide_eq_false hd]
        exact ih

theorem lookupT_map_self (t : List (Char × List Keys)) (c : Char) (v : List Keys)
    (hany : t.any (fun p => p.1 = c) = true) :
    lookupT (t.map (fun p => if p.1 = c then (c, v) else p)) c = v := by
  induction t with
  | nil => simp at hany
  | cons p ts ih =>
    by_cases hp : p.1 = c
    · simp [lookupT, List.find?_cons, hp]
    · simp only [List.any_cons, Bool.or_eq_true, decide_eq_true_eq] at hany
      rcases hany with h | h
      · exact absurd h hp
      · simp only [List.map_cons, if_neg hp, lookupT, List.find?_cons,
          decide_eq_false hp]
        exact ih h

theorem find?_none_of_any_false (t : List (Char × List Keys)) (c : Char)
    (hany : t.any (fun p => p.1 = c) = false) :
    t.find? (fun p => p.1 = c) = none := by
  induction t with
  | nil => rfl
  | cons p ts ih =>
    simp only [List.any_cons, Bool.or_eq_false_iff, decide_eq_false_iff_not] at hany
    simp only [List.find?_cons, decide_eq_false hany.1]
    exact ih (by simpa using hany.2)

/-- Reading the table after an overwrite: the written key reads the new
value, every other key is unchanged. -/
theorem lookupT_setT (t : List (Char × List Keys)) (c : Char) (v : List Keys)
    (d : Char) :
    lookupT (setT t c v) d = if d = c then v else lookupT t d := by
  unfold setT
  by_cases hany : t.any (fun p => p.1 = c) = true
  · rw [if_pos hany]
    by_cases hd : d = c
    · subst hd
      rw [if_pos rfl]
      exact lookupT_map_self t d v hany
    · rw [if_neg hd]
      exact lookupT_map_other t c v d hd
  · rw [if_neg hany]
    have hanyf : t.any (fun p => p.1 = c) = false := by
      rw [Bool.eq_false_iff]; exact hany
    have hf := find?_none_of_any_false t c hanyf
    by_cases hd : d = c
    · subst hd
      rw [if_pos rfl]
      simp [lookupT, List.find?_append, hf]
    · rw [if_neg hd]
      simp only [lookupT, List.find?_append]
      have : List.find? (fun p => p.1 = d) [(c, v)] = none := by
        simp [Ne.symm hd]
      rw [this]
      simp

/-- Reading the appended entry: the old contents followed by the new
candidates. -/
theorem lookupT_appendT_self (st : St) (c : Char) (cands : List Keys) :
    lookupT (appendT st c cands).table c = lookupT st.table c ++ cands := by
  simp [appendT, lookupT_setT]

/-- Appending to one entry leaves every other entry unchanged. -/
theorem lookupT_appendT_other (st : St) (c : Char) (cands : List Keys) (d : Char)
    (hne : d ≠ c) :
    lookupT (appendT st c cands).table d = lookupT st.table d := by
  simp [appendT, lookupT_setT, hne]

/-- Every entry of the table before an append is a prefix of the entry
after it. -/
theorem appendT_mono (st : St) (c : Char) (cands : List Keys) (d : Char) :
    lookupT st.table d <+: lookupT (appendT st c cands).table d := by
  by_cases hd : d = c
  · subst hd
    rw [lookupT_appendT_self]
    exact List.prefix_append _ _
  · rw [lookupT_appendT_other st c cands d hd]

/-- C1 counterexample: for the ligature `Ǣ → [œ]` with
`resolve(œ) = ["oe"]`, step 7 emits the raw concatenation `&oe↵` — the
component candidate is NOT passed through `escape_1` (which would have
produced `& oe↵`). -/
theorem ligature_not_escaped_counterexample :
    (findmapF 3 envLig ⟨[('œ', [['o', 'e']])], []⟩ 'Ǣ').map Prod.fst
      = some [['&', 'o', 'e', '↵']] ∧
    ('&' :: escape_1 ['o', 'e']) ++ ['↵'] = ['&', ' ', 'o', 'e', '↵'] ∧
    some [['&', 'o', 'e', '↵']] ≠
      (some [('&' :: escape_1 ['o', 'e']) ++ ['↵']] :
        Option (List Keys)) :=
  ⟨rfl, rfl, by decide⟩

/-- C1 (amended): when `findmap` succeeds on a non-cached, non-excluded
character with registered ligature components, the returned candidate
list is exactly the entry accumulated through step 6 followed by
`ligature_candidates` of the component candidate lists — one candidate
per choice of component candidates, each the unescaped concatenation of
the chosen candidates wrapped in the ligature markers. -/
theorem ligature_step_spec (g : Resolver) (env : Env) (st : St) (char : Char)
    (res : List Keys) (st' : St) (comps : List Char)
    (hcache : char ∉ st.cached) (hexcl : char ∉ excluded_chars)
    (hlig : lookupLig env char = some comps)
    (h : findmapG g env st char = some (res, st')) :
    ∃ (stMid : St) (lists : List (List Keys)) (stEnd : St),
      getmapListG g stMid comps = some (lists, stEnd) ∧
      res = lookupT stEnd.table char ++ ligature_candidates lists := by
  rw [findmapG, if_neg hcache, Option.bind_eq_some] at h
  obtain ⟨st2, hst2, h⟩ := h
  rw [if_neg hexcl, Option.bind_eq_some] at h
  obtain ⟨st5, hst5, h⟩ := h
  rw [Option.bind_eq_some] at h
  obtain ⟨st6, hst6, h⟩ := h
  rw [Option.map_eq_some'] at h
  obtain ⟨st7, hst7, h7⟩ := h
  rw [ligStep, hlig, Option.map_eq_some'] at hst7
  obtain ⟨r, hr, hst7eq⟩ := hst7
  refine ⟨st6, r.1, r.2, hr, ?_⟩
  have hres : lookupT st7.table char = res := congrArg Prod.fst h7
  rw [← hres, ← hst7eq]
  exact lookupT_appendT_self r.2 char (ligature_candidates r.1)

/-- Witness for the amended C1 at the spec's own example `ﬁ → [f, i]`:
the derivation yields exactly one candidate, the ligature wrapping of
`fi`. -/
theorem ligature_step_spec_witness :
    (findmapF 2 envFi ⟨[], []⟩ 'ﬁ').map Prod.fst = some [['&', 'f', 'i', '↵']] ∧
    (∃ (stMid : St) (lists : List (List Keys)) (stEnd : St),
      getmapListG (getmapF 2 envFi) stMid ['f', 'i'] = some (lists, stEnd) ∧
      [['&', 'f', 'i', '↵']] =
        lookupT stEnd.table 'ﬁ' ++ ligature_candidates lists) :=
  ⟨rfl,
    ligature_step_spec (getmapF 2 envFi) envFi ⟨[], []⟩ 'ﬁ'
      [['&', 'f', 'i', '↵']] ⟨[('ﬁ', [['&', 'f', 'i', '↵']])], ['ﬁ']⟩
      ['f', 'i'] (by decide) (by decide) rfl rfl⟩

/-- C2 (code bug): the character loop of `write_to_file` does NOT skip
unnamed codepoints.  `udata` is a defaultdict, so the guarded lookup
never raises and the `else` branch runs for every codepoint in the
range: `findmap` is invoked unconditionally, and its candidates are
emitted as rules whose comment is the sentinel name `UNNAMED` — contrary
to the claim (and to the source's own comment that "only characters with
name will be processed").  The first conjunct shows the loop body always
goes through `findmap`; the remaining conjuncts evaluate the loop at an
unnamed codepoint (U+E000, which lies in the projected range and has no
`UnicodeData` row) that carries a seeded definition: a rule IS emitted
for it. -/
theorem write_processes_unnamed :
    (∀ (fuel : Nat) (env : Env) (st : St) (cp : Nat) (cps : List Nat)
        (maps : List Keys) (st' : St),
      findmapF fuel env st (Char.ofNat cp) = some (maps, st') →
      writeCharsF fuel env (cp :: cps) st =
        (writeCharsF fuel env cps st').map (fun (r : List Rule × St) =>
          ((maps.map (fun m =>
            (⟨m, [Char.ofNat cp], (udata env (Char.ofNat cp)).name⟩ : Rule))) ++ r.1,
           r.2))) ∧
    env0.udataRaw.find? (fun p => p.1 = Char.ofNat 0xE000) = none ∧
    (udata env0 (Char.ofNat 0xE000)).name = "UNNAMED".toList ∧
    (writeCharsF 2 env0 [0xE000]
        ⟨[(Char.ofNat 0xE000, [['q', 'w']])], []⟩).map Prod.fst
      = some [⟨['q', 'w'], [Char.ofNat 0xE000], "UNNAMED".toList⟩] ∧
    0xE000 ∈ List.range 0x1FFFF := by
  refine ⟨?_, rfl, rfl, rfl, ?_⟩
  · intro fuel env st cp cps maps st' h
    simp only [writeCharsF, h]
  · rw [List.mem_range]
    omega

/-- Witness for the universal part of `write_processes_unnamed`,
instantiated at the unnamed seeded codepoint. -/
theorem write_processes_unnamed_witness :
    writeCharsF 2 env0 [0xE000] ⟨[(Char.ofNat 0xE000, [['q', 'w']])], []⟩ =
      (writeCharsF 2 env0 []
          ⟨[(Char.ofNat 0xE000, [['q', 'w']])], [Char.ofNat 0xE000]⟩).map
        (fun (r : List Rule × St) =>
          (([['q', 'w']].map (fun m =>
            (⟨m, [Char.ofNat 0xE000],
              (udata env0 (Char.ofNat 0xE000)).name⟩ : Rule))) ++ r.1, r.2)) :=
  write_processes_unnamed.1 2 env0 ⟨[(Char.ofNat 0xE000, [['q', 'w']])], []⟩
    0xE000 [] [['q', 'w']]
    ⟨[(Char.ofNat 0xE000, [['q', 'w']])], [Char.ofNat 0xE000]⟩ rfl

theorem tableMono_refl (st : St) : TableMono st st :=
  fun _ => List.prefix_rfl

theorem tableMono_trans {s1 s2 s3 : St} (h1 : TableMono s1 s2)
    (h2 : TableMono s2 s3) : TableMono s1 s3 :=
  fun d => (h1 d).trans (h2 d)

theorem appendT_tableMono (st : St) (c : Char) (cands : List Keys) :
    TableMono st (appendT st c cands) :=
  fun d => appendT_mono st c cands d

theorem getmapListG_mono {g : Resolver} (hg : ResolverMono g) :
    ∀ (cs : List Char) (st : St) (lists : List (List Keys)) (st' : St),
      getmapListG g st cs = some (lists, st') → TableMono st st' := by
  intro cs
  induction cs with
  | nil =>
    intro st lists st' h
    simp only [getmapListG, Option.some.injEq, Prod.mk.injEq] at h
    rw [← h.2]
    exact tableMono_refl st
  | cons c cs ih =>
    intro st lists st' h
    simp only [getmapListG, Option.bind_eq_some] at h
    obtain ⟨r, hr, h2⟩ := h
    rw [Option.map_eq_some'] at h2
    obtain ⟨r2, hr2, heq⟩ := h2
    have hst' : r2.2 = st' := congrArg Prod.snd heq
    exact tableMono_trans (hg st c r.1 r.2 (by rw [hr])) (hst' ▸ ih r.2 r2.1 r2.2 (by rw [hr2]))

theorem mds_mono {g : Resolver} (hg : ResolverMono g)
    (reg : List (List Char × Keys)) (diacs : List (List Char)) (deco : List Char)
    (st : St) (cands : List Keys) (st' : St)
    (h : make_diacritic_sequencesG g reg diacs deco st = some (cands, st')) :
    TableMono st st' := by
  rw [make_diacritic_sequencesG] at h
  split at h
  · rw [Option.bind_eq_some] at h
    obtain ⟨r, hr, h2⟩ := h
    rw [Option.map_eq_some'] at h2
    obtain ⟨cs, hcs, heq⟩ := h2
    have hst' : r.2 = st' := congrArg Prod.snd heq
    exact hst' ▸ getmapListG_mono hg deco st r.1 r.2 (by rw [hr])
  · simp only [Option.some.injEq, Prod.mk.injEq] at h
    rw [← h.2]
    exact tableMono_refl st

theorem customDiaG_mono {g : Resolver} (hg : ResolverMono g)
    (reg : List (List Char × Keys)) (char : Char) :
    ∀ (entries : List (List Char × List (List Char) × List Char)) (st st' : St),
      customDiaG g reg char entries st = some st' → TableMono st st' := by
  intro entries
  induction entries with
  | nil =>
    intro st st' h
    simp only [customDiaG, Option.some.injEq] at h
    exact h ▸ tableMono_refl st
  | cons e rest ih =>
    intro st st' h
    rw [customDiaG] at h
    split at h
    · rw [Option.bind_eq_some] at h
      obtain ⟨r, hr, h2⟩ := h
      exact tableMono_trans (mds_mono hg reg [e.1] _ st r.1 r.2 (by rw [hr]))
        (tableMono_trans (appendT_tableMono r.2 char r.1) (ih _ _ h2))
    · exact ih st st' h

theorem combiningStep_mono (env : Env) (char : Char) (st : St) :
    TableMono st (combiningStep env char st) := by
  rw [combiningStep]
  split
  · exact appendT_tableMono st char _
  · exact tableMono_refl st

theorem nfdStep_mono {g : Resolver} (hg : ResolverMono g) (env : Env)
    (char : Char) (st st' : St) (h : nfdStep g env char st = some st') :
    TableMono st st' := by
  rw [nfdStep] at h
  split at h
  · rw [Option.map_eq_some'] at h
    obtain ⟨r, hr, heq⟩ := h
    exact heq ▸ tableMono_trans (mds_mono hg env.diacritics _ _ st r.1 r.2 (by rw [hr]))
      (appendT_tableMono r.2 char r.1)
  · simp only [Option.some.injEq] at h
    exact h ▸ tableMono_refl st

theorem compatStep_mono {g : Resolver} (hg : ResolverMono g) (env : Env)
    (char : Char) (st st' : St) (h : compatStep g env char st = some st') :
    TableMono st st' := by
  rw [compatStep] at h
  split at h
  · exact absurd h (by simp)
  · split at h
    · rw [Option.map_eq_some'] at h
      obtain ⟨r, hr, heq⟩ := h
      exact heq ▸ tableMono_trans
        (mds_mono hg env.diacritics _ _ st r.1 r.2 (by rw [hr]))
        (appendT_tableMono r.2 char r.1)
    · rw [Option.map_eq_some'] at h
      obtain ⟨r, hr, heq⟩ := h
      exact heq ▸ tableMono_trans
        (mds_mono hg env.diacritics _ _ st r.1 r.2 (by rw [hr]))
        (appendT_tableMono r.2 char r.1)
  · simp only [Option.some.injEq] at h
    exact h ▸ tableMono_refl st

theorem ligStep_mono {g : Resolver} (hg : ResolverMono g) (env : Env)
    (char : Char) (st st' : St) (h : ligStep g env char st = some st') :
    TableMono st st' := by
  rw [ligStep] at h
  split at h
  · rw [Option.map_eq_some'] at h
    obtain ⟨r, hr, heq⟩ := h
    exact heq ▸ tableMono_trans (getmapListG_mono hg _ st r.1 r.2 (by rw [hr]))
      (appendT_tableMono r.2 char _)
  · simp only [Option.some.injEq] at h
    exact h ▸ tableMono_refl st

theorem findmapG_mono {g : Resolver} (hg : ResolverMono g) (env : Env)
    (st : St) (char : Char) (res : List Keys) (st' : St)
    (h : findmapG g env st char = some (res, st')) : TableMono st st' := by
  rw [findmapG] at h
  by_cases hc : char ∈ st.cached
  · rw [if_pos hc] at h
    simp only [Option.some.injEq, Prod.mk.injEq] at h
    exact h.2 ▸ tableMono_refl st
  · rw [if_neg hc, Option.bind_eq_some] at h
    obtain ⟨st2, hst2, h⟩ := h
    have m2 : TableMono st st2 := customDiaG_mono hg env.diacritics char _ st st2 hst2
    by_cases he : char ∈ excluded_chars
    · rw [if_pos he] at h
      simp only [Option.some.injEq, Prod.mk.injEq] at h
      have : st' = ⟨st2.table, char :: st2.cached⟩ := h.2.symm
      rw [this]
      exact m2
    · rw [if_neg he, Option.bind_eq_some] at h
      obtain ⟨st5, hst5, h⟩ := h
      rw [Option.bind_eq_some] at h
      obtain ⟨st6, hst6, h⟩ := h
      rw [Option.map_eq_some'] at h
      obtain ⟨st7, hst7, heq⟩ := h
      have m4 : TableMono st2 (combiningStep env char st2) :=
        combiningStep_mono env char st2
      have m5 : TableMono (combiningStep env char st2) st5 :=
        nfdStep_mono hg env char _ st5 hst5
      have m6 : TableMono st5 st6 := compatStep_mono hg env char st5 st6 hst6
      have m7 : TableMono st6 st7 := ligStep_mono hg env char st6 st7 hst7
      have hst' : st' = ⟨st7.table, char :: st7.cached⟩ :=
        (congrArg Prod.snd heq).symm
      rw [hst']
      exact tableMono_trans m2 (tableMono_trans m4 (tableMono_trans m5
        (tableMono_trans m6 m7)))

theorem getmapG_mono {g : Resolver} (hg : ResolverMono g) (env : Env) :
    ResolverMono (fun st c => getmapG g env st c) := by
  intro st c res st' h
  simp only [getmapG] at h
  by_cases hcore : c ∈ coreltrs
  · rw [if_pos hcore] at h
    simp only [Option.some.injEq, Prod.mk.injEq] at h
    exact h.2 ▸ tableMono_refl st
  · rw [if_neg hcore] at h
    by_cases hascii : '\x21' ≤ c ∧ c ≤ '\x7E'
    · rw [if_pos hascii] at h
      split at h
      · simp only [Option.some.injEq, Prod.mk.injEq] at h
        exact h.2 ▸ tableMono_refl st
      · exact findmapG_mono hg env st c res st' h
    · rw [if_neg hascii] at h
      exact findmapG_mono hg env st c res st' h

theorem getmapF_mono (fuel : Nat) (env : Env) :
    ResolverMono (getmapF fuel env) := by
  induction fuel with
  | zero => intro st c res st' h; exact absurd h (by simp [getmapF])
  | succ n ih =>
    intro st c res st' h
    exact getmapG_mono ih env st c res st' h

theorem findmapG_entry {g : Resolver} (hg : ResolverMono g) (env : Env)
    (st : St) (char : Char) (res : List Keys) (st' : St)
    (h : findmapG g env st char = some (res, st')) :
    lookupT st.table char <+: res ∧ res = lookupT st'.table char := by
  have hmono := findmapG_mono hg env st char res st' h
  rw [findmapG] at h
  by_cases hc : char ∈ st.cached
  · rw [if_pos hc] at h
    simp only [Option.some.injEq, Prod.mk.injEq] at h
    refine ⟨h.1 ▸ List.prefix_rfl, ?_⟩
    rw [← h.1, ← h.2]
  · rw [if_neg hc, Option.bind_eq_some] at h
    obtain ⟨st2, hst2, h⟩ := h
    by_cases he : char ∈ excluded_chars
    · rw [if_pos he] at h
      simp only [Option.some.injEq, Prod.mk.injEq] at h
      obtain ⟨hres, hst'⟩ := h
      have m2 := customDiaG_mono hg env.diacritics char _ st st2 hst2
      constructor
      · exact hres ▸ m2 char
      · rw [← hres, ← hst']
    · rw [if_neg he, Option.bind_eq_some] at h
      obtain ⟨st5, hst5, h⟩ := h
      rw [Option.bind_eq_some] at h
      obtain ⟨st6, hst6, h⟩ := h
      rw [Option.map_eq_some'] at h
      obtain ⟨st7, hst7, heq⟩ := h
      have hres : lookupT st7.table char = res := congrArg Prod.fst heq
      have hst' : st' = ⟨st7.table, char :: st7.cached⟩ :=
        (congrArg Prod.snd heq).symm
      have m2 := customDiaG_mono hg env.diacritics char _ st st2 hst2
      have m4 := combiningStep_mono env char st2
      have m5 := nfdStep_mono hg env char _ st5 hst5
      have m6 := compatStep_mono hg env char st5 st6 hst6
      have m7 := ligStep_mono hg env char st6 st7 hst7
      constructor
      · exact hres ▸ ((((m2 char).trans (m4 char)).trans (m5 char)).trans
          ((m6 char).trans (m7 char)))
      · rw [← hres, hst']

/-- C5: the `definitions` table is append-only under derivation.  When
`findmap` succeeds, (a) every entry of the table before the call is a
prefix of the same entry after it (entries are only appended to, never
removed), (b) the entries already recorded for the character (the seed;
empty for an absent key) are a prefix of the returned list, and (c) the
returned list is exactly the character's final table entry — the
memoization side effect. -/
theorem definitions_append_only (fuel : Nat) (env : Env) (st : St) (c : Char)
    (res : List Keys) (st' : St)
    (h : findmapF fuel env st c = some (res, st')) :
    (∀ d, lookupT st.table d <+: lookupT st'.table d) ∧
    lookupT st.table c <+: res ∧
    res = lookupT st'.table c := by
  have hg : ResolverMono (getmapF fuel env) := getmapF_mono fuel env
  have hmono := findmapG_mono hg env st c res st' h
  have hentry := findmapG_entry hg env st c res st' h
  exact ⟨hmono, hentry.1, hentry.2⟩

/-- Witness for C5: a seeded character with no applicable derivation
steps returns exactly its seed, which is both preceded by itself and
recorded in the final table. -/
theorem definitions_append_only_witness :
    lookupT [('œ', [['o', 'e']])] 'œ' <+: [['o', 'e']] ∧
    [['o', 'e']] = lookupT [('œ', [['o', 'e']])] 'œ' :=
  ⟨(definitions_append_only 1 env0 ⟨[('œ', [['o', 'e']])], []⟩ 'œ'
      [['o', 'e']] ⟨[('œ', [['o', 'e']])], ['œ']⟩ rfl).2.1,
   (definitions_append_only 1 env0 ⟨[('œ', [['o', 'e']])], []⟩ 'œ'
      [['o', 'e']] ⟨[('œ', [['o', 'e']])], ['œ']⟩ rfl).2.2⟩

/-- C3 counterexample: for the case pair `A`/`a` with stored lists
`[ZZ, B]` / `[zz, b]`, the sorted candidate lists `[B, ZZ]` / `[b, zz]`
match positionwise up to lowercasing (the claim's antecedent), yet the
combined pair entry `Aa::zz` is emitted TWICE — once while processing
`A` and again while processing `a` — because the positional lookup uses
the raw stored lists while the iteration and the "already emitted" mark
are keyed on the sorted lists. -/
theorem casepair_positional_counterexample :
    (udata envAa 'A').lower = some 'a' ∧
    (udata envAa 'a').upper = some 'A' ∧
    sortedBy lexLe [['Z', 'Z'], ['B']] = [['B'], ['Z', 'Z']] ∧
    sortedBy lexLe [['z', 'z'], ['b']] = [['b'], ['z', 'z']] ∧
    mapLower envAa ['B'] = ['b'] ∧
    mapLower envAa ['Z', 'Z'] = ['z', 'z'] ∧
    sortLines envAa defsAa =
      [Line.header ("not assigned".toList),
       Line.pair 'A' 'a' ['z', 'z'],
       Line.pair 'A' 'a' ['z', 'z']] ∧
    (sortLines envAa defsAa).count (Line.pair 'A' 'a' ['z', 'z']) = 2 := by
  decide

theorem procRules_lower (env : Env) (defs : List (Char × List Keys))
    (char : Char) (data : Chardata) (vL : List Keys)
    (hself : ∀ x ∈ vL, mapLower env x = x) :
    ∀ (n : Nat) (ls : List Keys), ls = vL.drop n →
      procRules env defs char data n ls vL = ([], vL) := by
  intro n ls
  induction ls generalizing n with
  | nil => intro _; rfl
  | cons l ls' ih =>
    intro hls
    have hmem : l ∈ vL := by
      have h1 : l ∈ vL.drop n := by
        rw [← hls]; exact List.mem_cons_self l ls'
      exact List.mem_of_mem_drop h1
    have hin : mapLower env l ∈ vL := by
      rw [hself l hmem]; exact hmem
    rw [procRules, if_pos hin]
    apply ih (n + 1)
    have h1 : (vL.drop n).drop 1 = vL.drop (n + 1) := List.drop_drop 1 n vL
    rw [← h1, ← hls]
    rfl

theorem procRules_upper (env : Env) (defs : List (Char × List Keys))
    (upp low : Char) (vU vL : List Keys) (dataU : Chardata)
    (hdl : dataU.lower = some low) (hdu : dataU.upper = none)
    (hne : low ≠ upp)
    (hround : (udata env ((udata env low).upper.getD 'a')).lower = some low)
    (hlookL : lookupT defs low = vL) (hlookU : lookupT defs upp = vU)
    (hmap : vL = vU.map (mapLower env)) (hnd : vL.Nodup) :
    ∀ (n : Nat) (us : List Keys), us = vU.drop n →
      procRules env defs upp dataU n us (vL.take n)
        = ((vL.drop n).map (Line.pair upp low), vL) := by
  intro n us
  induction us generalizing n with
  | nil =>
    intro hus
    have hlenU : vU.length ≤ n := by
      have h0 := congrArg List.length hus.symm
      rw [List.length_drop] at h0
      simp at h0
      omega
    have hlenL : vL.length ≤ n := by
      rw [hmap, List.length_map]; exact hlenU
    have h1 : vL.drop n = [] := List.drop_eq_nil_of_le hlenL
    have h2 : vL.take n = vL := List.take_of_length_le hlenL
    rw [h2, procRules, h1]
    rfl
  | cons u us' ih =>
    intro hus
    have hdX : vU.drop n = u :: us' := hus.symm
    have hu : vU[n]? = some u := by
      have h0 := List.getElem?_drop vU n 0
      rw [hdX] at h0
      simpa using h0.symm
    have hvLdrop : vL.drop n = mapLower env u :: us'.map (mapLower env) := by
      rw [hmap, ← List.map_drop (mapLower env) vU n, hdX]
      rfl
    have hl : vL[n]? = some (mapLower env u) := by
      have h0 := List.getElem?_drop vL n 0
      rw [hvLdrop] at h0
      simpa using h0.symm
    have hnotmem : mapLower env u ∉ vL.take n := by
      intro hmem
      have hsplit : vL.take n ++ (mapLower env u :: us'.map (mapLower env)) = vL := by
        rw [← hvLdrop]; exact List.take_append_drop n vL
      have hnd2 :
          (vL.take n ++ (mapLower env u :: us'.map (mapLower env))).Nodup := by
        rw [hsplit]; exact hnd
      rcases List.nodup_append.mp hnd2 with ⟨-, -, hdisj⟩
      exact hdisj hmem (List.mem_cons_self _ _)
    have hdropU : vU.drop (n + 1) = us' := by
      have h1 : (vU.drop n).drop 1 = vU.drop (n + 1) := List.drop_drop 1 n vU
      rw [← h1, hdX]
      rfl
    have hdropL : vL.drop (n + 1) = us'.map (mapLower env) := by
      have h1 : (vL.drop n).drop 1 = vL.drop (n + 1) := List.drop_drop 1 n vL
      rw [← h1, hvLdrop]
      rfl
    have htake1 : vL.take n ++ [mapLower env u] = vL.take (n + 1) := by
      rw [List.take_succ, hl]
      rfl
    rw [procRules, if_neg hnotmem]
    simp only [hdl, hdu, Option.getD_some, Option.getD_none]
    rw [if_pos ⟨hne, Or.inl trivial, hround⟩, hlookL, hlookU, hl, hu]
    simp only [if_pos rfl]
    rw [htake1, ih (n + 1) hdropU.symm, hvLdrop, hdropL]
    rfl

/-- C3 (amended): the positional lookup of the compaction uses the raw
stored candidate lists, not the sorted ones.  When the two stored lists
are already sorted and aligned — the lowercase list is the
(duplicate-free) characterwise lowercasing of the uppercase list — the
intended behavior holds: processing the pair emits exactly one combined
entry per matching position (all for the uppercase character, which
precedes its counterpart in codepoint order) and no separate
per-character entries; every candidate of the counterpart is suppressed
by the "already emitted" mark. -/
theorem casepair_compaction_aligned (env : Env) (upp low : Char)
    (vU vL : List Keys)
    (h1 : (udata env upp).lower = some low)
    (h2 : (udata env upp).upper = none)
    (h3 : (udata env low).upper = some upp)
    (h5 : upp ≠ low)
    (h6 : upp.toNat < low.toNat)
    (h7 : sortedBy lexLe vU = vU)
    (h7' : sortedBy lexLe vL = vL)
    (h8 : vL = vU.map (mapLower env))
    (h9 : vL.Nodup)
    (h10 : ∀ c, env.lowerChar (env.lowerChar c) = env.lowerChar c) :
    (sortLines env [(upp, vU), (low, vL)]).filter notHeader
      = vL.map (Line.pair upp low) := by
  have hble : Nat.ble upp.toNat low.toNat = true := by
    rw [Nat.ble_eq]; exact Nat.le_of_lt h6
  have hfoldl : sortedBy (fun a b => Nat.ble a.1.toNat b.1.toNat)
      [(upp, vU), (low, vL)] = [(upp, vU), (low, vL)] := by
    simp [sortedBy, insertS, hble]
  have hlookU : lookupT [(upp, vU), (low, vL)] upp = vU := by
    simp [lookupT]
  have hlookL : lookupT [(upp, vU), (low, vL)] low = vL := by
    simp [lookupT, h5]
  have hround : (udata env ((udata env low).upper.getD 'a')).lower = some low := by
    rw [h3, Option.getD_some, h1]
  have hidem : ∀ y : Keys, mapLower env (mapLower env y) = mapLower env y := by
    intro y
    simp only [mapLower, List.map_map]
    exact List.map_congr_left (fun c _ => h10 c)
  have hself : ∀ x ∈ vL, mapLower env x = x := by
    intro x hx
    rw [h8] at hx
    obtain ⟨y, -, rfl⟩ := List.mem_map.mp hx
    exact hidem y
  have hA := procRules_upper env [(upp, vU), (low, vL)] upp low vU vL
    (udata env upp) h1 h2 (Ne.symm h5) hround hlookL hlookU h8 h9 0 vU rfl
  have hA' : procRules env [(upp, vU), (low, vL)] upp (udata env upp) 0 vU []
      = (vL.map (Line.pair upp low), vL) := hA
  have hB := procRules_lower env [(upp, vU), (low, vL)] low (udata env low) vL
    hself 0 vL rfl
  have hfilterpair : (vL.map (Line.pair upp low)).filter notHeader
      = vL.map (Line.pair upp low) := by
    refine List.filter_eq_self.mpr ?_
    intro x hx
    obtain ⟨y, -, rfl⟩ := List.mem_map.mp hx
    rfl
  rw [sortLines, hfoldl]
  simp only [sortOuter]
  rw [h7, h7', hA', hB]
  simp only [List.filter_append, hfilterpair]
  split <;> split <;> simp [notHeader]

/-- Witness for the amended C3: the case pair `A`/`a`, each with the
single stored candidate `b` (identity lowercasing), produces exactly one
combined pair line and nothing else. -/
theorem casepair_compaction_aligned_witness :
    (sortLines envAaId [('A', [['b']]), ('a', [['b']])]).filter notHeader
      = [['b']].map (Line.pair 'A' 'a') :=
  casepair_compaction_aligned envAaId 'A' 'a' [['b']] [['b']]
    rfl rfl rfl (by decide) (by decide) (by decide) (by decide) rfl
    (by decide) (fun c => rfl)
